import Mathlib

/-!
Verification of `update_strongs_in_verses.py`.

The program performs a single join-and-merge pass: it iterates the verse
collection, and for each token with a truthy `strongs` key it looks the key up
in the Strong's definitions map, overwriting the token's `strong_def` field
when the looked-up definition differs from the current one.  The embedding
below models the JSON data (tokens, verses, the definitions map) and the
merge function `update_strong_definitions` with explicit state passing: the
state carries the definitions map (the Python function receives a mutable
dict, so we thread it through every step to be able to state that it is never
mutated), the two counters and the set of missing keys.
-/

namespace LogosApi

/-- A token record: the two fields the program reads or writes (`strongs` and
`strong_def`, both optional — `none` models an absent key or JSON null), plus
the remaining key/value fields, which the program never touches. -/
structure Token where
  strongs : Option String
  strong_def : Option String
  other : List (String × String)
deriving DecidableEq, Repr

/-- A verse record: the optional `tokens` sequence (`none` models a verse
record with no `tokens` key, which the merge skips) plus all other fields. -/
structure Verse where
  tokens : Option (List Token)
  vOther : List (String × String)
deriving DecidableEq, Repr

/-- The Strong's definitions map, a JSON object from identifier to
definition string, modelled as an association list with `List.lookup`. -/
abbrev Defs := List (String × String)

/-- The verse collection: verse reference keys to verse records, in the
insertion order a Python dict preserves. -/
abbrev Verses := List (String × Verse)

/-- The mutable state of the merge loop: the definitions dict (threaded so
that non-mutation is provable), the two counters and the missing-key set. -/
structure MergeState where
  strongs_definitions : Defs
  updated_count : Nat
  not_found_count : Nat
  missing_strongs : Finset String
deriving DecidableEq

/-- Python truthiness of an optional string value: `None` (here `none`) and
the empty string are falsy, everything else truthy. -/
def truthy : Option String → Bool
  | none => false
  | some s => s != ""

/-- One iteration of the inner token loop of `update_strong_definitions`:
`strongs_num = token.get('strongs'); if not strongs_num: continue;
if strongs_num in strongs_definitions: ... else: ...`. -/
def process_token (st : MergeState) (token : Token) : MergeState × Token :=
  match token.strongs with
  | none => (st, token)
  | some strongs_num =>
    if strongs_num = "" then (st, token)
    else
      match st.strongs_definitions.lookup strongs_num with
      | some new_def =>
        let old_def := token.strong_def.getD ""
        if old_def ≠ new_def then
          ({ st with updated_count := st.updated_count + 1 },
           { token with strong_def := some new_def })
        else (st, token)
      | none =>
        ({ st with not_found_count := st.not_found_count + 1,
                   missing_strongs := insert strongs_num st.missing_strongs },
         token)

/-- The inner `for token in verse_data['tokens']` loop. -/
def process_tokens (st : MergeState) : List Token → MergeState × List Token
  | [] => (st, [])
  | t :: ts =>
    let p := process_token st t
    let q := process_tokens p.1 ts
    (q.1, p.2 :: q.2)

/-- One iteration of the outer verse loop: a verse record without a `tokens`
key is skipped (`if 'tokens' not in verse_data: continue`). -/
def process_verse (st : MergeState) (verse_data : Verse) : MergeState × Verse :=
  match verse_data.tokens with
  | none => (st, verse_data)
  | some toks =>
    let p := process_tokens st toks
    (p.1, { verse_data with tokens := some p.2 })

/-- The outer `for verse_ref, verse_data in verses.items()` loop. -/
def process_verses (st : MergeState) : Verses → MergeState × Verses
  | [] => (st, [])
  | (ref, v) :: rest =>
    let p := process_verse st v
    let q := process_verses p.1 rest
    (q.1, (ref, p.2) :: q.2)

/-- `update_strong_definitions` from the source: returns the tuple
`(updated verses, updated_count, not_found_count, missing_strongs)`. -/
def update_strong_definitions (verses : Verses) (strongs_definitions : Defs) :
    Verses × Nat × Nat × Finset String :=
  let p := process_verses ⟨strongs_definitions, 0, 0, ∅⟩ verses
  (p.2, p.1.updated_count, p.1.not_found_count, p.1.missing_strongs)

/-- The token at verse index `k`, token index `j` of a verse collection. -/
def getToken (vs : Verses) (k j : Nat) : Option Token :=
  match vs[k]? with
  | some p =>
    match p.2.tokens with
    | some ts => ts[j]?
    | none => none
  | none => none

/-- The pure transformation the merge applies to one token (the counters do
not feed back into the token, so the token output depends only on the
definitions map); proven to agree with `process_token` below. -/
def tokenFun (defs : Defs) (token : Token) : Token :=
  match token.strongs with
  | none => token
  | some strongs_num =>
    if strongs_num = "" then token
    else
      match defs.lookup strongs_num with
      | some new_def =>
        if token.strong_def.getD "" ≠ new_def then
          { token with strong_def := some new_def }
        else token
      | none => token

/-- The pure transformation the merge applies to one verse record. -/
def verseFun (defs : Defs) (v : Verse) : Verse :=
  { v with tokens := v.tokens.map (List.map (tokenFun defs)) }

/-- Does this token cause the updated counter to be incremented? -/
def updPred (defs : Defs) (t : Token) : Bool :=
  match t.strongs with
  | none => false
  | some s =>
    if s = "" then false
    else
      match defs.lookup s with
      | some d => t.strong_def.getD "" != d
      | none => false

/-- Does this token cause the not-found counter to be incremented? -/
def missPred (defs : Defs) (t : Token) : Bool :=
  match t.strongs with
  | none => false
  | some s =>
    if s = "" then false
    else
      match defs.lookup s with
      | some _ => false
      | none => true

/-- The missing key this token contributes, if any. -/
def missKey (defs : Defs) (t : Token) : Option String :=
  match t.strongs with
  | none => none
  | some s =>
    if s = "" then none
    else
      match defs.lookup s with
      | some _ => none
      | none => some s

/-- All tokens of the collection, across every verse record, in order. -/
def allTokens : Verses → List Token
  | [] => []
  | (_, v) :: rest => (v.tokens.getD []) ++ allTokens rest

/-- The definitions map of the end-to-end example in the spec. -/
def exDefs : Defs := [("G26", "love"), ("G5547", "Christ")]

/-- The verse collection of the end-to-end example in the spec: one verse,
one token matching the map (with empty current definition) and one token
missing from it. -/
def exVerses : Verses :=
  [("John 3:16", ⟨some [⟨some "G26", some "", []⟩, ⟨some "G9999", none, []⟩], []⟩)]

/-- Full characterization of one iteration of the token loop: the definitions
map is untouched, each counter grows by its predicate's contribution, the
missing set absorbs the token's missing key if any, and the token is
rewritten by `tokenFun`. -/
lemma process_token_eq (st : MergeState) (t : Token) :
    process_token st t =
      ({ st with
          updated_count := st.updated_count +
            (if updPred st.strongs_definitions t then 1 else 0),
          not_found_count := st.not_found_count +
            (if missPred st.strongs_definitions t then 1 else 0),
          missing_strongs := st.missing_strongs ∪
            (missKey st.strongs_definitions t).toList.toFinset },
       tokenFun st.strongs_definitions t) := by
  obtain ⟨defs, uc, nf, ms⟩ := st
  unfold process_token tokenFun updPred missPred missKey
  cases t.strongs with
  | none => simp
  | some s =>
    by_cases hs : s = ""
    · simp [hs]
    · simp only [hs, if_false, ite_false]
      cases defs.lookup s with
      | some d =>
        by_cases he : t.strong_def.getD "" ≠ d
        · simp [he]
        · simp [he]
      | none =>
        simp [Finset.insert_eq, Finset.union_comm]

/-- Full characterization of the inner token loop over a whole list. -/
lemma process_tokens_eq (st : MergeState) (ts : List Token) :
    process_tokens st ts =
      ({ st with
          updated_count := st.updated_count +
            ts.countP (updPred st.strongs_definitions),
          not_found_count := st.not_found_count +
            ts.countP (missPred st.strongs_definitions),
          missing_strongs := st.missing_strongs ∪
            (ts.filterMap (missKey st.strongs_definitions)).toFinset },
       ts.map (tokenFun st.strongs_definitions)) := by
  induction ts generalizing st with
  | nil => simp [process_tokens]
  | cons t ts ih =>
    obtain ⟨defs, uc, nf, ms⟩ := st
    simp only [process_tokens, process_token_eq, ih, List.map_cons, List.countP_cons,
      List.filterMap_cons]
    refine Prod.ext ?_ rfl
    cases hmk : missKey defs t with
    | none =>
      simp only [hmk, Option.toList, List.toFinset_nil, Finset.union_empty,
        MergeState.mk.injEq, List.toFinset_nil]
      refine ⟨trivial, by omega, by omega, trivial⟩
    | some s =>
      simp only [hmk, Option.toList, List.toFinset_cons, List.toFinset_nil,
        MergeState.mk.injEq, List.toFinset_cons]
      refine ⟨trivial, by omega, by omega, ?_⟩
      ext a
      simp [Finset.mem_union, Finset.mem_insert]
      tauto

/-- Full characterization of one iteration of the verse loop. -/
lemma process_verse_eq (st : MergeState) (v : Verse) :
    process_verse st v =
      ({ st with
          updated_count := st.updated_count +
            (v.tokens.getD []).countP (updPred st.strongs_definitions),
          not_found_count := st.not_found_count +
            (v.tokens.getD []).countP (missPred st.strongs_definitions),
          missing_strongs := st.missing_strongs ∪
            ((v.tokens.getD []).filterMap (missKey st.strongs_definitions)).toFinset },
       verseFun st.strongs_definitions v) := by
  obtain ⟨tks, vo⟩ := v
  cases tks with
  | none =>
    obtain ⟨defs, uc, nf, ms⟩ := st
    simp [process_verse, verseFun]
  | some ts =>
    simp [process_verse, process_tokens_eq, verseFun]

/-- Full characterization of the whole verse loop. -/
lemma process_verses_eq (st : MergeState) (vs : Verses) :
    process_verses st vs =
      ({ st with
          updated_count := st.updated_count +
            (allTokens vs).countP (updPred st.strongs_definitions),
          not_found_count := st.not_found_count +
            (allTokens vs).countP (missPred st.strongs_definitions),
          missing_strongs := st.missing_strongs ∪
            ((allTokens vs).filterMap (missKey st.strongs_definitions)).toFinset },
       vs.map (fun p => (p.1, verseFun st.strongs_definitions p.2))) := by
  induction vs generalizing st with
  | nil =>
    obtain ⟨defs, uc, nf, ms⟩ := st
    simp [process_verses, allTokens]
  | cons pv vs ih =>
    obtain ⟨ref, v⟩ := pv
    obtain ⟨defs, uc, nf, ms⟩ := st
    simp only [process_verses, process_verse_eq, ih, List.map_cons, allTokens,
      List.countP_append, List.filterMap_append, List.toFinset_append]
    refine Prod.ext ?_ rfl
    simp only [MergeState.mk.injEq]
    refine ⟨trivial, by omega, by omega, ?_⟩
    ext a
    simp [Finset.mem_union]

/-- Closed form of `update_strong_definitions`: verses are mapped pointwise
by `verseFun`, the counters count the update/miss tokens, and the missing set
collects the missing keys of all tokens. -/
lemma update_strong_definitions_eq (vs : Verses) (defs : Defs) :
    update_strong_definitions vs defs =
      (vs.map (fun p => (p.1, verseFun defs p.2)),
       (allTokens vs).countP (updPred defs),
       (allTokens vs).countP (missPred defs),
       ((allTokens vs).filterMap (missKey defs)).toFinset) := by
  unfold update_strong_definitions
  simp [process_verses_eq]

/-- The token at position `(k, j)` after the merge is the image under
`tokenFun` of the token at position `(k, j)` before the merge. -/
lemma getToken_update (vs : Verses) (defs : Defs) (k j : Nat) :
    getToken (update_strong_definitions vs defs).1 k j =
      (getToken vs k j).map (tokenFun defs) := by
  rw [update_strong_definitions_eq]
  unfold getToken
  rw [List.getElem?_map]
  cases vs[k]? with
  | none => rfl
  | some p =>
    cases hts : p.2.tokens with
    | none => simp [verseFun, hts]
    | some ts => simp [verseFun, hts, List.getElem?_map]

/-- `tokenFun` never changes the `strongs` field. -/
lemma tokenFun_strongs (defs : Defs) (t : Token) :
    (tokenFun defs t).strongs = t.strongs := by
  unfold tokenFun
  cases hs : t.strongs with
  | none => exact hs
  | some s =>
    by_cases hne : s = ""
    · simp [hne, hs]
    · cases hl : defs.lookup s with
      | some d =>
        by_cases he : t.strong_def.getD "" ≠ d
        · simp [hne, hl, he, hs]
        · simp [hne, hl, he, hs]
      | none => simp [hne, hl, hs]

/-- `tokenFun` never changes the other fields. -/
lemma tokenFun_other (defs : Defs) (t : Token) :
    (tokenFun defs t).other = t.other := by
  unfold tokenFun
  cases hs : t.strongs with
  | none => rfl
  | some s =>
    by_cases hne : s = ""
    · simp [hne]
    · cases hl : defs.lookup s with
      | some d =>
        by_cases he : t.strong_def.getD "" ≠ d
        · simp [hne, hl, he]
        · simp [hne, hl, he]
      | none => simp [hne, hl]

/-- A token with a falsy `strongs` value is left untouched by `tokenFun`. -/
lemma tokenFun_of_falsy (defs : Defs) (t : Token) (h : truthy t.strongs = false) :
    tokenFun defs t = t := by
  unfold tokenFun
  unfold truthy at h
  cases hs : t.strongs with
  | none => rfl
  | some s =>
    rw [hs] at h
    have hse : s = "" := by simpa using h
    simp [hse]

/-- A token whose `strongs` key misses the definitions map is untouched. -/
lemma tokenFun_of_miss (defs : Defs) (t : Token) (s : String)
    (hs : t.strongs = some s) (hne : s ≠ "") (hl : defs.lookup s = none) :
    tokenFun defs t = t := by
  unfold tokenFun
  rw [hs]
  simp [hne, hl]

/-- A token whose looked-up definition equals its current `strong_def`
(read with default empty string) is untouched. -/
lemma tokenFun_of_same (defs : Defs) (t : Token) (s d : String)
    (hs : t.strongs = some s) (hne : s ≠ "") (hl : defs.lookup s = some d)
    (he : t.strong_def.getD "" = d) :
    tokenFun defs t = t := by
  unfold tokenFun
  rw [hs]
  simp [hne, hl, he]

/-- After `tokenFun`, a token whose `strongs` key hits the definitions map
holds exactly the looked-up definition. -/
lemma tokenFun_strong_def (defs : Defs) (t : Token) (s d : String)
    (hs : t.strongs = some s) (hne : s ≠ "") (hl : defs.lookup s = some d) :
    (tokenFun defs t).strong_def.getD "" = d := by
  unfold tokenFun
  rw [hs]
  by_cases he : t.strong_def.getD "" = d
  · simp [hne, hl, he]
  · simp [hne, hl, he]

/-- `tokenFun` is idempotent. -/
lemma tokenFun_idem (defs : Defs) (t : Token) :
    tokenFun defs (tokenFun defs t) = tokenFun defs t := by
  cases hs : t.strongs with
  | none =>
    have h : tokenFun defs t = t := tokenFun_of_falsy defs t (by simp [truthy, hs])
    rw [h, h]
  | some s =>
    by_cases hne : s = ""
    · have h : tokenFun defs t = t := by
        refine tokenFun_of_falsy defs t ?_
        rw [hs, hne]
        decide
      rw [h, h]
    · cases hl : defs.lookup s with
      | none =>
        have h := tokenFun_of_miss defs t s hs hne hl
        rw [h, h]
      | some d =>
        exact tokenFun_of_same defs (tokenFun defs t) s d
          (by rw [tokenFun_strongs, hs]) hne hl
          (tokenFun_strong_def defs t s d hs hne hl)

/-- After one pass no token satisfies the update predicate any more. -/
lemma updPred_tokenFun (defs : Defs) (t : Token) :
    updPred defs (tokenFun defs t) = false := by
  unfold updPred
  cases hs' : (tokenFun defs t).strongs with
  | none => rfl
  | some s =>
    by_cases hne : s = ""
    · simp [hne]
    · cases hl : defs.lookup s with
      | none => simp [hne, hl]
      | some d =>
        have hs : t.strongs = some s := by rw [← tokenFun_strongs defs t, hs']
        have hd := tokenFun_strong_def defs t s d hs hne hl
        simp [hne, hl, hd]

/-- Characterization of the missing key a token contributes. -/
lemma missKey_eq_some (defs : Defs) (t : Token) (s : String) :
    missKey defs t = some s ↔
      t.strongs = some s ∧ s ≠ "" ∧ defs.lookup s = none := by
  constructor
  · intro h
    unfold missKey at h
    cases hs : t.strongs with
    | none =>
      rw [hs] at h
      exact absurd h (by simp)
    | some u =>
      rw [hs] at h
      by_cases hne : u = ""
      · simp [hne] at h
      · cases hl : defs.lookup u with
        | some d =>
          simp [hne, hl] at h
        | none =>
          simp [hne, hl] at h
          subst h
          exact ⟨rfl, hne, hl⟩
  · rintro ⟨hs, hne, hl⟩
    unfold missKey
    rw [hs]
    simp [hne, hl]

/-- A token contributes a missing key exactly when it misses the map. -/
lemma missKey_isSome (defs : Defs) (t : Token) :
    (missKey defs t).isSome = missPred defs t := by
  unfold missKey missPred
  cases t.strongs with
  | none => rfl
  | some s =>
    by_cases hne : s = ""
    · simp [hne]
    · cases hl : defs.lookup s <;> simp [hne, hl]

/-- A token cannot hit both counters. -/
lemma not_updPred_and_missPred (defs : Defs) (t : Token) :
    ¬(updPred defs t = true ∧ missPred defs t = true) := by
  unfold updPred missPred
  cases t.strongs with
  | none => simp
  | some s =>
    by_cases hne : s = ""
    · simp [hne]
    · cases hl : defs.lookup s <;> simp [hne, hl]

/-- The missing keys of a token list are as many as its missing tokens. -/
lemma length_filterMap_missKey (defs : Defs) (ts : List Token) :
    (ts.filterMap (missKey defs)).length = ts.countP (missPred defs) := by
  induction ts with
  | nil => rfl
  | cons t ts ih =>
    rw [List.filterMap_cons, List.countP_cons]
    have hp := missKey_isSome defs t
    cases hmk : missKey defs t with
    | none =>
      rw [hmk] at hp
      simp [ih, ← hp]
    | some s =>
      rw [hmk] at hp
      simp [ih, ← hp]

/-- The tokens of the mapped verse collection are the mapped tokens. -/
lemma allTokens_map_verseFun (defs : Defs) (vs : Verses) :
    allTokens (vs.map (fun p => (p.1, verseFun defs p.2))) =
      (allTokens vs).map (tokenFun defs) := by
  induction vs with
  | nil => rfl
  | cons pv vs ih =>
    obtain ⟨ref, v⟩ := pv
    rw [List.map_cons, allTokens, allTokens, List.map_append, ih]
    congr 1
    unfold verseFun
    cases v.tokens <;> rfl

/-- A falsy token never satisfies the update predicate. -/
lemma updPred_of_falsy (defs : Defs) (t : Token) (h : truthy t.strongs = false) :
    updPred defs t = false := by
  unfold updPred
  unfold truthy at h
  cases hs : t.strongs with
  | none => rfl
  | some s =>
    rw [hs] at h
    have hse : s = "" := by simpa using h
    simp [hse]

/-- A falsy token never satisfies the miss predicate. -/
lemma missPred_of_falsy (defs : Defs) (t : Token) (h : truthy t.strongs = false) :
    missPred defs t = false := by
  unfold missPred
  unfold truthy at h
  cases hs : t.strongs with
  | none => rfl
  | some s =>
    rw [hs] at h
    have hse : s = "" := by simpa using h
    simp [hse]

/-- A falsy token contributes no missing key. -/
lemma missKey_of_falsy (defs : Defs) (t : Token) (h : truthy t.strongs = false) :
    missKey defs t = none := by
  unfold missKey
  unfold truthy at h
  cases hs : t.strongs with
  | none => rfl
  | some s =>
    rw [hs] at h
    have hse : s = "" := by simpa using h
    simp [hse]

/-- Mapping `tokenFun` over a list is idempotent. -/
lemma map_tokenFun_idem (defs : Defs) (ts : List Token) :
    (ts.map (tokenFun defs)).map (tokenFun defs) = ts.map (tokenFun defs) := by
  induction ts with
  | nil => rfl
  | cons t ts ih => simp [ih, tokenFun_idem]

/-- `verseFun` is idempotent. -/
lemma verseFun_idem (defs : Defs) (v : Verse) :
    verseFun defs (verseFun defs v) = verseFun defs v := by
  obtain ⟨tks, vo⟩ := v
  cases tks with
  | none => rfl
  | some ts =>
    unfold verseFun
    simp only [Option.map_some']
    rw [map_tokenFun_idem]

/-- Mapping `verseFun` over the verse collection is idempotent. -/
lemma map_verseFun_idem (defs : Defs) (vs : Verses) :
    ((vs.map (fun p => (p.1, verseFun defs p.2))).map
        (fun p => (p.1, verseFun defs p.2))) =
      vs.map (fun p => (p.1, verseFun defs p.2)) := by
  induction vs with
  | nil => rfl
  | cons p vs ih => simp [ih, verseFun_idem]

/-- Permuting the verse collection permutes the multiset of its tokens. -/
lemma allTokens_perm (vs₁ vs₂ : Verses) (h : vs₁.Perm vs₂) :
    (allTokens vs₁).Perm (allTokens vs₂) := by
  induction h with
  | nil => exact List.Perm.refl _
  | cons x h ih =>
    simp only [allTokens]
    exact ih.append_left _
  | swap x y l =>
    simp only [allTokens, ← List.append_assoc]
    exact (List.perm_append_comm).append_right _
  | trans h₁ h₂ ih₁ ih₂ => exact ih₁.trans ih₂

/-- C1: for every token (at verse index `k`, token index `j`) whose
`strongs` value is a truthy string present as a key in the definitions map,
after `update_strong_definitions` the token at that position has
`strong_def` (reading an absent field as the empty string) equal to the
definition the map holds for that key. -/
theorem C1_matched_token_gets_definition (vs : Verses) (defs : Defs)
    (k j : Nat) (tok : Token) (s d : String)
    (hget : getToken vs k j = some tok) (hs : tok.strongs = some s)
    (htr : truthy tok.strongs = true) (hd : defs.lookup s = some d) :
    ∃ tok', getToken (update_strong_definitions vs defs).1 k j = some tok' ∧
      tok'.strong_def.getD "" = d := by
  have hne : s ≠ "" := by
    rw [hs] at htr
    simpa [truthy] using htr
  refine ⟨tokenFun defs tok, ?_, tokenFun_strong_def defs tok s d hs hne hd⟩
  rw [getToken_update, hget]
  rfl

/-- Witness for C1 at the spec's example input. -/
theorem C1_matched_token_gets_definition_witness :
    getToken exVerses 0 0 = some ⟨some "G26", some "", []⟩ ∧
    truthy (some "G26") = true ∧
    exDefs.lookup "G26" = some "love" ∧
    ∃ tok', getToken (update_strong_definitions exVerses exDefs).1 0 0 = some tok' ∧
      tok'.strong_def.getD "" = "love" :=
  ⟨by decide, by decide, by decide,
   C1_matched_token_gets_definition exVerses exDefs 0 0 ⟨some "G26", some "", []⟩
     "G26" "love" (by decide) rfl (by decide) (by decide)⟩

/-- C2: a token whose truthy `strongs` key is absent from the definitions
map is left unchanged, the not-found counter counts every such occurrence,
and a key belongs to the returned missing set exactly when some token
references it and misses the map (the set holds it once however many tokens
reference it). -/
theorem C2_missing_key_handling (vs : Verses) (defs : Defs) :
    (∀ k j tok s, getToken vs k j = some tok → tok.strongs = some s →
        truthy tok.strongs = true → defs.lookup s = none →
        getToken (update_strong_definitions vs defs).1 k j = some tok) ∧
    (update_strong_definitions vs defs).2.2.1 =
      (allTokens vs).countP (missPred defs) ∧
    (∀ s, s ∈ (update_strong_definitions vs defs).2.2.2 ↔
        ∃ tok, tok ∈ allTokens vs ∧ tok.strongs = some s ∧ s ≠ "" ∧
          defs.lookup s = none) := by
  refine ⟨?_, ?_, ?_⟩
  · intro k j tok s hget hs htr hl
    have hne : s ≠ "" := by
      rw [hs] at htr
      simpa [truthy] using htr
    rw [getToken_update, hget]
    simp [tokenFun_of_miss defs tok s hs hne hl]
  · rw [update_strong_definitions_eq]
  · intro s
    rw [update_strong_definitions_eq]
    simp only [List.mem_toFinset, List.mem_filterMap, missKey_eq_some]

/-- Witness for C2 at the spec's example input. -/
theorem C2_missing_key_handling_witness :
    getToken exVerses 0 1 = some ⟨some "G9999", none, []⟩ ∧
    truthy (some "G9999") = true ∧
    exDefs.lookup "G9999" = none ∧
    getToken (update_strong_definitions exVerses exDefs).1 0 1 =
      some ⟨some "G9999", none, []⟩ :=
  ⟨by decide, by decide, by decide,
   (C2_missing_key_handling exVerses exDefs).1 0 1 ⟨some "G9999", none, []⟩
     "G9999" (by decide) rfl (by decide) (by decide)⟩

/-- C3: a token with a falsy `strongs` value (absent key, JSON null or
empty string) is skipped: the loop step leaves both the state (hence both
counters) and the token untouched, and the token is unchanged in the final
collection. -/
theorem C3_falsy_token_skipped (tok : Token) (h : truthy tok.strongs = false) :
    (∀ st, process_token st tok = (st, tok)) ∧
    (∀ vs defs k j, getToken vs k j = some tok →
        getToken (update_strong_definitions vs defs).1 k j = some tok) := by
  constructor
  · intro st
    obtain ⟨d0, u0, n0, m0⟩ := st
    rw [process_token_eq]
    rw [updPred_of_falsy _ _ h, missPred_of_falsy _ _ h, missKey_of_falsy _ _ h,
      tokenFun_of_falsy _ _ h]
    simp
  · intro vs defs k j hget
    rw [getToken_update, hget]
    simp [tokenFun_of_falsy _ _ h]

/-- Witness for C3 on a token with no `strongs` key. -/
theorem C3_falsy_token_skipped_witness :
    truthy (Token.mk none (some "x") []).strongs = false ∧
    process_token ⟨exDefs, 0, 0, ∅⟩ ⟨none, some "x", []⟩ =
      (⟨exDefs, 0, 0, ∅⟩, ⟨none, some "x", []⟩) :=
  ⟨by decide,
   (C3_falsy_token_skipped ⟨none, some "x", []⟩ (by decide)).1 ⟨exDefs, 0, 0, ∅⟩⟩

/-- C4: applying the merge a second time with the same definitions map
reports zero updates and returns the collection unchanged. -/
theorem C4_idempotent (vs : Verses) (defs : Defs) :
    (update_strong_definitions (update_strong_definitions vs defs).1 defs).2.1 = 0 ∧
    (update_strong_definitions (update_strong_definitions vs defs).1 defs).1 =
      (update_strong_definitions vs defs).1 := by
  constructor
  · rw [update_strong_definitions_eq vs defs]
    rw [update_strong_definitions_eq]
    simp only [allTokens_map_verseFun, List.countP_map]
    rw [List.countP_eq_zero]
    intro t ht
    simp [Function.comp, updPred_tokenFun]
  · rw [update_strong_definitions_eq vs defs]
    rw [update_strong_definitions_eq]
    exact map_verseFun_idem defs vs

/-- C5: frame property: the merge preserves the number and order of verse
records, every verse key, every non-`tokens` verse field, the presence and
length of every `tokens` sequence, and every token field other than
`strong_def`. -/
theorem C5_frame_property (vs : Verses) (defs : Defs) :
    (update_strong_definitions vs defs).1.length = vs.length ∧
    (∀ (k : Nat) (ref : String) (v : Verse), vs[k]? = some (ref, v) →
      ∃ v' : Verse, (update_strong_definitions vs defs).1[k]? = some (ref, v') ∧
        v'.vOther = v.vOther ∧
        (v.tokens = none → v' = v) ∧
        (∀ toks : List Token, v.tokens = some toks →
          ∃ toks' : List Token, v'.tokens = some toks' ∧ toks'.length = toks.length ∧
            (∀ (j : Nat) (tok : Token), toks[j]? = some tok →
              ∃ tok' : Token, toks'[j]? = some tok' ∧ tok'.strongs = tok.strongs ∧
                tok'.other = tok.other))) := by
  rw [update_strong_definitions_eq]
  constructor
  · simp
  · intro k ref v hk
    obtain ⟨tks, vo⟩ := v
    refine ⟨verseFun defs ⟨tks, vo⟩, ?_, rfl, ?_, ?_⟩
    · rw [List.getElem?_map, hk]
      rfl
    · intro hnone
      rw [show tks = none from hnone]
      rfl
    · intro toks htoks
      rw [show tks = some toks from htoks]
      refine ⟨toks.map (tokenFun defs), rfl, by simp, ?_⟩
      intro j tok hj
      refine ⟨tokenFun defs tok, ?_, tokenFun_strongs defs tok, tokenFun_other defs tok⟩
      rw [List.getElem?_map, hj]
      rfl

/-- Witness for C5 at the spec's example input. -/
theorem C5_frame_property_witness :
    exVerses[0]? = some ("John 3:16",
      Verse.mk (some [Token.mk (some "G26") (some "") [],
        Token.mk (some "G9999") none []]) []) ∧
    (∃ v' : Verse,
      (update_strong_definitions exVerses exDefs).1[0]? = some ("John 3:16", v') ∧
      v'.vOther = (Verse.mk (some [Token.mk (some "G26") (some "") [],
        Token.mk (some "G9999") none []]) []).vOther ∧
      ((Verse.mk (some [Token.mk (some "G26") (some "") [],
          Token.mk (some "G9999") none []]) []).tokens = none →
        v' = Verse.mk (some [Token.mk (some "G26") (some "") [],
          Token.mk (some "G9999") none []]) []) ∧
      (∀ toks : List Token,
        (Verse.mk (some [Token.mk (some "G26") (some "") [],
          Token.mk (some "G9999") none []]) []).tokens = some toks →
        ∃ toks' : List Token, v'.tokens = some toks' ∧ toks'.length = toks.length ∧
          (∀ (j : Nat) (tok : Token), toks[j]? = some tok →
            ∃ tok' : Token, toks'[j]? = some tok' ∧ tok'.strongs = tok.strongs ∧
              tok'.other = tok.other))) :=
  ⟨by decide,
   (C5_frame_property exVerses exDefs).2 0 "John 3:16"
     (Verse.mk (some [Token.mk (some "G26") (some "") [],
       Token.mk (some "G9999") none []]) []) (by decide)⟩

/-- C6: the definitions map carried through the merge state is identical
after processing any verse collection to what it was before: the merge
reads it but never writes it. -/
theorem C6_definitions_never_mutated (st : MergeState) (vs : Verses) :
    (process_verses st vs).1.strongs_definitions = st.strongs_definitions := by
  rw [process_verses_eq]

/-- C7: the merge is a pure function (two runs on identical inputs agree),
and permuting the iteration order of the verse records, or of the tokens
inside the loop, changes neither the final counters nor the missing set,
and permutes the resulting records correspondingly. -/
theorem C7_deterministic_and_order_independent :
    (∀ vs defs, update_strong_definitions vs defs = update_strong_definitions vs defs) ∧
    (∀ (vs₁ vs₂ : Verses) (defs : Defs), vs₁.Perm vs₂ →
      (update_strong_definitions vs₁ defs).2.1 = (update_strong_definitions vs₂ defs).2.1 ∧
      (update_strong_definitions vs₁ defs).2.2.1 =
        (update_strong_definitions vs₂ defs).2.2.1 ∧
      (update_strong_definitions vs₁ defs).2.2.2 =
        (update_strong_definitions vs₂ defs).2.2.2 ∧
      ((update_strong_definitions vs₁ defs).1).Perm (update_strong_definitions vs₂ defs).1) ∧
    (∀ (st : MergeState) (ts₁ ts₂ : List Token), ts₁.Perm ts₂ →
      (process_tokens st ts₁).1 = (process_tokens st ts₂).1 ∧
      ((process_tokens st ts₁).2).Perm (process_tokens st ts₂).2) := by
  refine ⟨fun vs defs => rfl, ?_, ?_⟩
  · intro vs₁ vs₂ defs h
    have htok := allTokens_perm vs₁ vs₂ h
    rw [update_strong_definitions_eq, update_strong_definitions_eq]
    exact ⟨htok.countP_eq _, htok.countP_eq _,
      List.toFinset_eq_of_perm _ _ (htok.filterMap _), h.map _⟩
  · intro st ts₁ ts₂ h
    rw [process_tokens_eq, process_tokens_eq]
    refine ⟨?_, h.map _⟩
    rw [h.countP_eq (updPred st.strongs_definitions),
      h.countP_eq (missPred st.strongs_definitions),
      List.toFinset_eq_of_perm _ _ (h.filterMap (missKey st.strongs_definitions))]

/-- Witness for C7: swapping the two tokens of the example verse leaves the
final loop state unchanged and permutes the produced tokens. -/
theorem C7_deterministic_and_order_independent_witness :
    ([Token.mk (some "G26") (some "") [], Token.mk (some "G9999") none []].Perm
      [Token.mk (some "G9999") none [], Token.mk (some "G26") (some "") []]) ∧
    (process_tokens (MergeState.mk exDefs 0 0 ∅)
        [Token.mk (some "G26") (some "") [], Token.mk (some "G9999") none []]).1 =
      (process_tokens (MergeState.mk exDefs 0 0 ∅)
        [Token.mk (some "G9999") none [], Token.mk (some "G26") (some "") []]).1 ∧
    ((process_tokens (MergeState.mk exDefs 0 0 ∅)
        [Token.mk (some "G26") (some "") [], Token.mk (some "G9999") none []]).2).Perm
      (process_tokens (MergeState.mk exDefs 0 0 ∅)
        [Token.mk (some "G9999") none [], Token.mk (some "G26") (some "") []]).2 :=
  ⟨List.Perm.swap (Token.mk (some "G9999") none []) (Token.mk (some "G26") (some "") []) [],
   (C7_deterministic_and_order_independent.2.2 (MergeState.mk exDefs 0 0 ∅)
     [Token.mk (some "G26") (some "") [], Token.mk (some "G9999") none []]
     [Token.mk (some "G9999") none [], Token.mk (some "G26") (some "") []]
     (List.Perm.swap (Token.mk (some "G9999") none [])
       (Token.mk (some "G26") (some "") []) [])).1,
   (C7_deterministic_and_order_independent.2.2 (MergeState.mk exDefs 0 0 ∅)
     [Token.mk (some "G26") (some "") [], Token.mk (some "G9999") none []]
     [Token.mk (some "G9999") none [], Token.mk (some "G26") (some "") []]
     (List.Perm.swap (Token.mk (some "G9999") none [])
       (Token.mk (some "G26") (some "") []) [])).2⟩

/-- C8: the spec's end-to-end example: the matched token's `strong_def`
becomes "love", the unmatched token is untouched, one update and one miss
are counted, and the missing set is exactly the singleton of the unmatched
key. -/
theorem C8_end_to_end_example :
    update_strong_definitions exVerses exDefs =
      ([("John 3:16",
          ⟨some [⟨some "G26", some "love", []⟩, ⟨some "G9999", none, []⟩], []⟩)],
       1, 1, {"G9999"}) := by
  decide

/-- C9: when the looked-up definition equals the token's current
`strong_def` read with default empty string — in particular when the token
has no `strong_def` key and the definition is the empty string — the loop
step changes nothing: no `strong_def` key is created, the token is returned
as-is, and neither counter nor the missing set moves. -/
theorem C9_equal_definition_noop (st : MergeState) (tok : Token) (s d : String)
    (hs : tok.strongs = some s) (hne : s ≠ "")
    (hl : st.strongs_definitions.lookup s = some d)
    (he : tok.strong_def.getD "" = d) :
    process_token st tok = (st, tok) := by
  obtain ⟨d0, u0, n0, m0⟩ := st
  have h1 : updPred d0 tok = false := by
    unfold updPred
    rw [hs]
    simp [hne, hl, he]
  have h2 : missPred d0 tok = false := by
    unfold missPred
    rw [hs]
    simp [hne, hl]
  have h3 : missKey d0 tok = none := by
    unfold missKey
    rw [hs]
    simp [hne, hl]
  rw [process_token_eq]
  rw [h1, h2, h3, tokenFun_of_same _ _ s d hs hne hl he]
  simp

/-- Witness for C9: a token with no `strong_def` key whose definition in
the map is the empty string is left completely unchanged. -/
theorem C9_equal_definition_noop_witness :
    (Token.mk (some "G1") none []).strongs = some "G1" ∧
    "G1" ≠ "" ∧
    (MergeState.mk [("G1", "")] 0 0 ∅).strongs_definitions.lookup "G1" = some "" ∧
    (Token.mk (some "G1") none []).strong_def.getD "" = "" ∧
    process_token (MergeState.mk [("G1", "")] 0 0 ∅) (Token.mk (some "G1") none []) =
      (MergeState.mk [("G1", "")] 0 0 ∅, Token.mk (some "G1") none []) :=
  ⟨rfl, by decide, by decide, by decide,
   C9_equal_definition_noop (MergeState.mk [("G1", "")] 0 0 ∅)
     (Token.mk (some "G1") none []) "G1" "" rfl (by decide) (by decide) (by decide)⟩

/-- C10: each token feeds at most one of the two counters, so their sum is
bounded by the total number of tokens, and the not-found counter dominates
the cardinality of the (deduplicated) missing-key set. -/
theorem C10_counter_invariant (vs : Verses) (defs : Defs) :
    (∀ t : Token, ¬(updPred defs t = true ∧ missPred defs t = true)) ∧
    (update_strong_definitions vs defs).2.1 + (update_strong_definitions vs defs).2.2.1 ≤
      (allTokens vs).length ∧
    (update_strong_definitions vs defs).2.2.2.card ≤
      (update_strong_definitions vs defs).2.2.1 := by
  refine ⟨not_updPred_and_missPred defs, ?_, ?_⟩
  · rw [update_strong_definitions_eq]
    dsimp only
    have heq := List.length_eq_countP_add_countP (updPred defs) (allTokens vs)
    have hle : (allTokens vs).countP (missPred defs) ≤
        (allTokens vs).countP (fun a => decide ¬(updPred defs a = true)) := by
      apply List.countP_mono_left
      intro t ht hmt
      have hnb := not_updPred_and_missPred defs t
      cases hupd : updPred defs t with
      | false => simp
      | true => exact absurd ⟨hupd, hmt⟩ hnb
    omega
  · rw [update_strong_definitions_eq]
    calc ((allTokens vs).filterMap (missKey defs)).toFinset.card
        ≤ ((allTokens vs).filterMap (missKey defs)).length :=
          List.toFinset_card_le _
      _ = (allTokens vs).countP (missPred defs) :=
          length_filterMap_missKey defs _

/-- Witness for C10 at the spec's example input. -/
theorem C10_counter_invariant_witness :
    (update_strong_definitions exVerses exDefs).2.1 +
        (update_strong_definitions exVerses exDefs).2.2.1 ≤
      (allTokens exVerses).length ∧
    ¬(updPred exDefs (Token.mk (some "G9999") none []) = true ∧
      missPred exDefs (Token.mk (some "G9999") none []) = true) :=
  ⟨(C10_counter_invariant exVerses exDefs).2.1,
   (C10_counter_invariant exVerses exDefs).1 (Token.mk (some "G9999") none [])⟩

end LogosApi
